import Mathlib

/-!
Verification of the potential-evaluation kernels of
`src/streamteam/potential/cbuiltin.pyx`: the Hernquist spheroid,
Miyamoto–Nagai disk and Lee–Suto triaxial NFW potentials, their batch
evaluation loops, constructors and the rotation handling.

Real numbers stand for the C doubles; `writeLoop` models the
`for i in range(nparticles)` in-place writes into the caller buffers.
-/

noncomputable section

open Classical

/-! ## Error taxonomy (spec §7) -/

/-- Error kinds of the spec's taxonomy. -/
inductive PotentialErr where
  | invalidParameter : PotentialErr
  | notImplemented : PotentialErr
  | invalidArgument : PotentialErr
deriving DecidableEq

/-! ## Hernquist kernel (`_HernquistPotential`, lines 44–115) -/

/-- Attributes stored by `_HernquistPotential.__init__`. -/
structure HernquistData where
  G : ℝ
  GM : ℝ
  m : ℝ
  c : ℝ

/-- `_HernquistPotential.__init__(G, m, c)`: stores `GM = G*m`. -/
def mkHernquist (G m c : ℝ) : HernquistData :=
  { G := G, GM := G * m, m := m, c := c }

/-- Body of `_HernquistPotential._value` for one particle:
`pot[i] = -GM / (R + c)` with `R = sqrt(x*x + y*y + z*z)`. -/
def hernquist_pot (GM c x y z : ℝ) : ℝ :=
  -GM / (Real.sqrt (x*x + y*y + z*z) + c)

/-- The factor `fac = GM / (pow(R + c, 2) * R)` of `_HernquistPotential._gradient`. -/
def hernquist_fac (GM c x y z : ℝ) : ℝ :=
  GM / ((Real.sqrt (x*x + y*y + z*z) + c)^2 * Real.sqrt (x*x + y*y + z*z))

/-- Body of `_HernquistPotential._gradient` for one particle:
`grad[i] = (fac*x, fac*y, fac*z)`. -/
def hernquist_grad (GM c x y z : ℝ) : ℝ × ℝ × ℝ :=
  (hernquist_fac GM c x y z * x, hernquist_fac GM c x y z * y,
   hernquist_fac GM c x y z * z)

/-! ## Miyamoto–Nagai kernel (`_MiyamotoNagaiPotential`, lines 147–227) -/

/-- Attributes stored by `_MiyamotoNagaiPotential.__init__`. -/
structure MiyamotoData where
  G : ℝ
  GM : ℝ
  m : ℝ
  a : ℝ
  b : ℝ
  b2 : ℝ

/-- `_MiyamotoNagaiPotential.__init__(G, m, a, b)`: stores `GM = G*m`, `b2 = b*b`. -/
def mkMiyamoto (G m a b : ℝ) : MiyamotoData :=
  { G := G, GM := G * m, m := m, a := a, b := b, b2 := b * b }

/-- The local `sqrtz = sqrt(z*z + b2)` of `_MiyamotoNagaiPotential._gradient`. -/
def mn_sqrtz (b2 z : ℝ) : ℝ :=
  Real.sqrt (z*z + b2)

/-- The local `zd = a + sqrt(z*z + b2)` of `_MiyamotoNagaiPotential`. -/
def mn_zd (a b2 z : ℝ) : ℝ :=
  a + mn_sqrtz b2 z

/-- Body of `_MiyamotoNagaiPotential._value` for one particle:
`pot[i] = -GM / sqrt(x*x + y*y + zd*zd)`. -/
def miyamoto_pot (GM a b2 x y z : ℝ) : ℝ :=
  -GM / Real.sqrt (x*x + y*y + mn_zd a b2 z * mn_zd a b2 z)

/-- The local `fac = GM * pow(x*x + y*y + zd*zd, -1.5)` of
`_MiyamotoNagaiPotential._gradient`. -/
def mn_fac (GM a b2 x y z : ℝ) : ℝ :=
  GM * (x*x + y*y + mn_zd a b2 z * mn_zd a b2 z) ^ (-(3/2) : ℝ)

/-- Body of `_MiyamotoNagaiPotential._gradient` for one particle:
`grad[i] = (fac*x, fac*y, fac*z*(1 + a/sqrtz))`. -/
def miyamoto_grad (GM a b2 x y z : ℝ) : ℝ × ℝ × ℝ :=
  (mn_fac GM a b2 x y z * x, mn_fac GM a b2 x y z * y,
   mn_fac GM a b2 x y z * z * (1 + a / mn_sqrtz b2 z))

/-! ## Lee–Suto NFW kernel (`_LeeSutoNFWPotential`, lines 260–358) -/

/-- Native-frame closed form of `_LeeSutoNFWPotential._value` (line 310),
after the rotated coordinates `x, y, z` have been formed:
`_r = sqrt(x*x + y*y + z*z)`, `u = _r / r_h`. -/
def leesuto_pot_nat (v_h2 r_h e_b2 e_c2 x y z : ℝ) : ℝ :=
  let _r := Real.sqrt (x*x + y*y + z*z)
  let u := _r / r_h
  v_h2*((e_b2/2 + e_c2/2)*((1/u - 1/u^3)*Real.log (u + 1) - 1 +
      (2*u^2 - 3*u + 6)/(6*u^2)) +
    (e_b2*y^2/(2*_r*_r) + e_c2*z*z/(2*_r*_r))*((u*u - 3*u - 6)/(2*u*u*(u + 1)) +
      3*Real.log (u + 1)/u/u/u) - Real.log (u + 1)/u)

/-- Native-frame closed form of `_LeeSutoNFWPotential._gradient`
(lines 334–354): the acceleration components `(ax, ay, az)` built from the
shared subexpressions `x0, x1, x2, x7, x10, ..., x22`. -/
def leesuto_grad_nat (v_h2 r_h e_b2 e_c2 x y z : ℝ) : ℝ × ℝ × ℝ :=
  let r_h2 := r_h*r_h
  let _r2 := x*x + y*y + z*z
  let _r := Real.sqrt _r2
  let x0 := _r + r_h
  let x1 := x0*x0
  let x2 := v_h2/(12*_r^7*x1)
  let x7 := e_b2*y*y + e_c2*z*z
  let x10 := Real.log (x0/r_h)
  let x11 := x0*x10
  let x13 := _r*3*r_h
  let x15 := x13 - _r2
  let x16 := x15 + 6*r_h2
  let x17 := 6*r_h*x0*(_r*x16 - x11*6*r_h2)
  let x18 := x1*x10
  let x20 := x0*_r2
  let x21 := 2*_r*x0
  let x22 := -12*_r^5*r_h*x0 + 12*_r^4*r_h*x18 +
    3*r_h*x7*(x16*_r2 - 18*x18*r_h2 + x20*(2*_r - 3*r_h) + x21*(x15 + 9*r_h2)) -
    x20*(e_b2 + e_c2)*(-6*_r*r_h*(_r2 - r_h2) + 6*r_h*x11*(_r2 - 3*r_h2) +
      x20*(-4*_r + 3*r_h) + x21*(-x13 + 2*_r2 + 6*r_h2))
  (x2*x*(x17*x7 + x22), x2*y*(x17*(x7 - _r2*e_b2) + x22),
   x2*z*(x17*(x7 - _r2*e_c2) + x22))

/-- Attributes stored by `_LeeSutoNFWPotential.__init__`. -/
structure LeeSutoData where
  v_h : ℝ
  r_h : ℝ
  a : ℝ
  b : ℝ
  c : ℝ
  e_b2 : ℝ
  e_c2 : ℝ
  v_h2 : ℝ
  r_h2 : ℝ
  a2 : ℝ
  b2 : ℝ
  c2 : ℝ
  x0 : ℝ
  R : Matrix (Fin 3) (Fin 3) ℝ
  Rinv : Matrix (Fin 3) (Fin 3) ℝ

/-- `_LeeSutoNFWPotential.__init__(v_h, r_h, a, b, c, R)`: stores the squared
parameters, the ellipticities `e_b2 = 1 - (b/a)^2`, `e_c2 = 1 - (c/a)^2`, and
`Rinv = np.linalg.inv(R)` (the matrix inverse is always computed). -/
def mkLeeSuto (v_h r_h a b c : ℝ) (R : Matrix (Fin 3) (Fin 3) ℝ) : LeeSutoData :=
  { v_h := v_h, v_h2 := v_h*v_h, r_h := r_h, r_h2 := r_h*r_h,
    a := a, a2 := a*a, b := b, b2 := b*b, c := c, c2 := c*c,
    e_b2 := 1 - (b/a)^2, e_c2 := 1 - (c/a)^2,
    x0 := 1/r_h, R := R, Rinv := R⁻¹ }

/-- `_LeeSutoNFWPotential._value` for one particle: rotate the world position
into the native frame with `R`, then apply the closed form. -/
def leesuto_value_at (P : LeeSutoData) (p : ℝ × ℝ × ℝ) : ℝ :=
  let x := P.R 0 0 * p.1 + P.R 0 1 * p.2.1 + P.R 0 2 * p.2.2
  let y := P.R 1 0 * p.1 + P.R 1 1 * p.2.1 + P.R 1 2 * p.2.2
  let z := P.R 2 0 * p.1 + P.R 2 1 * p.2.1 + P.R 2 2 * p.2.2
  leesuto_pot_nat P.v_h2 P.r_h P.e_b2 P.e_c2 x y z

/-- `_LeeSutoNFWPotential._gradient` for one particle: rotate into the native
frame with `R`, form `(ax, ay, az)`, rotate back with `Rinv`. -/
def leesuto_grad_at (P : LeeSutoData) (p : ℝ × ℝ × ℝ) : ℝ × ℝ × ℝ :=
  let x := P.R 0 0 * p.1 + P.R 0 1 * p.2.1 + P.R 0 2 * p.2.2
  let y := P.R 1 0 * p.1 + P.R 1 1 * p.2.1 + P.R 1 2 * p.2.2
  let z := P.R 2 0 * p.1 + P.R 2 1 * p.2.1 + P.R 2 2 * p.2.2
  let g := leesuto_grad_nat P.v_h2 P.r_h P.e_b2 P.e_c2 x y z
  (P.Rinv 0 0 * g.1 + P.Rinv 0 1 * g.2.1 + P.Rinv 0 2 * g.2.2,
   P.Rinv 1 0 * g.1 + P.Rinv 1 1 * g.2.1 + P.Rinv 1 2 * g.2.2,
   P.Rinv 2 0 * g.1 + P.Rinv 2 1 * g.2.1 + P.Rinv 2 2 * g.2.2)

/-- Modelled from the spec: the external `astropy` collaborator
`rotation_matrix(angle, "z")` (x-convention Euler matrices of §4.2, as used by
`LeeSutoNFWPotential.__init__`). -/
def rotation_matrix_z (t : ℝ) : Matrix (Fin 3) (Fin 3) ℝ :=
  !![Real.cos t, Real.sin t, 0; -Real.sin t, Real.cos t, 0; 0, 0, 1]

/-- Modelled from the spec: the external `astropy` collaborator
`rotation_matrix(angle, "x")` (x-convention Euler matrices of §4.2). -/
def rotation_matrix_x (t : ℝ) : Matrix (Fin 3) (Fin 3) ℝ :=
  !![1, 0, 0; 0, Real.cos t, Real.sin t; 0, -Real.sin t, Real.cos t]

/-- The rotation matrix built by `LeeSutoNFWPotential.__init__` (lines 393–400):
`R = B(psi) · C(theta) · D(phi)` when some angle is nonzero, `np.eye(3)` otherwise. -/
def leesuto_euler_R (phi theta psi : ℝ) : Matrix (Fin 3) (Fin 3) ℝ :=
  if theta ≠ 0 ∨ phi ≠ 0 ∨ psi ≠ 0 then
    rotation_matrix_z psi * rotation_matrix_x theta * rotation_matrix_z phi
  else 1

/-- `LeeSutoNFWPotential.__init__(v_h, r_h, a, b, c, phi, theta, psi)`:
builds `R` from the Euler angles and passes it to `_LeeSutoNFWPotential`. -/
def leesuto_init (v_h r_h a b c phi theta psi : ℝ) : LeeSutoData :=
  mkLeeSuto v_h r_h a b c (leesuto_euler_R phi theta psi)

/-! ## Batch evaluation loops

Each kernel's `_value`/`_gradient` runs `for i in range(nparticles)` writing
`pot[i]`/`grad[i]` into the caller-provided buffer and reading `r[i]` only.
`writeLoop f n buf` performs the writes `buf[i] = f i` for `i = 0..n-1`;
a kernel call is a state transformer on `(positions, output buffer)`. -/

/-- The in-place write loop `for i in range(n): buf[i] = f(i)`. -/
def writeLoop {α : Type} (f : ℕ → α) : ℕ → List α → List α
  | 0, buf => buf
  | Nat.succ k, buf => (writeLoop f k buf).set k (f k)

/-- `r[i]` as read by the loops (bounds checks are disabled in the source). -/
def posAt (r : List (ℝ × ℝ × ℝ)) (i : ℕ) : ℝ × ℝ × ℝ :=
  r.getD i (0, 0, 0)

/-- `_HernquistPotential._value(r, pot, nparticles)` as a state transformer. -/
def hernquist_value_call (GM c : ℝ) (r : List (ℝ × ℝ × ℝ)) (pot : List ℝ)
    (n : ℕ) : List (ℝ × ℝ × ℝ) × List ℝ :=
  (r, writeLoop
    (fun i => hernquist_pot GM c (posAt r i).1 (posAt r i).2.1 (posAt r i).2.2) n pot)

/-- `_HernquistPotential._gradient(r, grad, nparticles)` as a state transformer. -/
def hernquist_gradient_call (GM c : ℝ) (r : List (ℝ × ℝ × ℝ))
    (grad : List (ℝ × ℝ × ℝ)) (n : ℕ) :
    List (ℝ × ℝ × ℝ) × List (ℝ × ℝ × ℝ) :=
  (r, writeLoop
    (fun i => hernquist_grad GM c (posAt r i).1 (posAt r i).2.1 (posAt r i).2.2) n grad)

/-- `_MiyamotoNagaiPotential._value(r, pot, nparticles)` as a state transformer. -/
def miyamoto_value_call (GM a b2 : ℝ) (r : List (ℝ × ℝ × ℝ)) (pot : List ℝ)
    (n : ℕ) : List (ℝ × ℝ × ℝ) × List ℝ :=
  (r, writeLoop
    (fun i => miyamoto_pot GM a b2 (posAt r i).1 (posAt r i).2.1 (posAt r i).2.2) n pot)

/-- `_MiyamotoNagaiPotential._gradient(r, grad, nparticles)` as a state transformer. -/
def miyamoto_gradient_call (GM a b2 : ℝ) (r : List (ℝ × ℝ × ℝ))
    (grad : List (ℝ × ℝ × ℝ)) (n : ℕ) :
    List (ℝ × ℝ × ℝ) × List (ℝ × ℝ × ℝ) :=
  (r, writeLoop
    (fun i => miyamoto_grad GM a b2 (posAt r i).1 (posAt r i).2.1 (posAt r i).2.2) n grad)

/-- `_LeeSutoNFWPotential._value(r, pot, nparticles)` as a state transformer. -/
def leesuto_value_call (P : LeeSutoData) (r : List (ℝ × ℝ × ℝ)) (pot : List ℝ)
    (n : ℕ) : List (ℝ × ℝ × ℝ) × List ℝ :=
  (r, writeLoop (fun i => leesuto_value_at P (posAt r i)) n pot)

/-- `_LeeSutoNFWPotential._gradient(r, grad, nparticles)` as a state transformer. -/
def leesuto_gradient_call (P : LeeSutoData) (r : List (ℝ × ℝ × ℝ))
    (grad : List (ℝ × ℝ × ℝ)) (n : ℕ) :
    List (ℝ × ℝ × ℝ) × List (ℝ × ℝ × ℝ) :=
  (r, writeLoop (fun i => leesuto_grad_at P (posAt r i)) n grad)

/-- The 3×3 matrix–vector application written out in components, exactly as
the `_LeeSutoNFWPotential` loops write it. -/
def applyMat (M : Matrix (Fin 3) (Fin 3) ℝ) (p : ℝ × ℝ × ℝ) : ℝ × ℝ × ℝ :=
  (M 0 0 * p.1 + M 0 1 * p.2.1 + M 0 2 * p.2.2,
   M 1 0 * p.1 + M 1 1 * p.2.1 + M 1 2 * p.2.2,
   M 2 0 * p.1 + M 2 1 * p.2.1 + M 2 2 * p.2.2)

/-- Modelled from the spec (§4.2): a variant of `_LeeSutoNFWPotential.__init__`
that skips the general matrix inversion when `R` is the identity, storing the
identity as `Rinv` directly; compared against `mkLeeSuto` in the refinement
claim. -/
def mkLeeSuto_specSkip (v_h r_h a b c : ℝ) (R : Matrix (Fin 3) (Fin 3) ℝ) :
    LeeSutoData :=
  { v_h := v_h, v_h2 := v_h*v_h, r_h := r_h, r_h2 := r_h*r_h,
    a := a, a2 := a*a, b := b, b2 := b*b, c := c, c2 := c*c,
    e_b2 := 1 - (b/a)^2, e_c2 := 1 - (c/a)^2,
    x0 := 1/r_h, R := R, Rinv := if R = 1 then 1 else R⁻¹ }

/-! ## Parameter checking and hessian dispatch

The `CPotential`/`CartesianPotential` base classes (modules `.cpotential` and
`.core` of the repository) that receive the parameter dictionaries and expose
the public `value`/`gradient`/`hessian` interface are not part of this source
file; their behavior is modelled from the spec (§4.3, §7). -/

/-- A raw parameter value as an IEEE double: finite, NaN or an infinity. -/
inductive RawVal where
  | fin (x : ℝ) : RawVal
  | nan : RawVal
  | inf : RawVal
  | neginf : RawVal

/-- A raw parameter is missing (absent from the dictionary) or non-finite. -/
def isMissingOrNonFinite (p : Option RawVal) : Prop :=
  ∀ x : ℝ, p ≠ some (RawVal.fin x)

/-- Modelled from the spec (§7): required-parameter resolution at model
construction, performed by the base classes absent from `src/`: a missing or
non-finite (NaN/Inf) parameter raises `InvalidParameter`. -/
def getParam (p : Option RawVal) : Except PotentialErr ℝ :=
  match p with
  | some (RawVal.fin x) => Except.ok x
  | _ => Except.error PotentialErr.invalidParameter

/-- Modelled from the spec (§7): checked construction of the Hernquist model
(parameter resolution happens in the base classes absent from `src/`). -/
def mkHernquistChecked (G m c : Option RawVal) : Except PotentialErr HernquistData := do
  let G ← getParam G
  let m ← getParam m
  let c ← getParam c
  Except.ok (mkHernquist G m c)

/-- Modelled from the spec (§7): checked construction of the Miyamoto–Nagai
model (parameter resolution happens in the base classes absent from `src/`). -/
def mkMiyamotoChecked (G m a b : Option RawVal) : Except PotentialErr MiyamotoData := do
  let G ← getParam G
  let m ← getParam m
  let a ← getParam a
  let b ← getParam b
  Except.ok (mkMiyamoto G m a b)

/-- Modelled from the spec (§7): checked construction of the Lee–Suto model:
missing/non-finite required parameters and non-positive shape axes raise
`InvalidParameter` (the checks happen outside `src/`). -/
def mkLeeSutoChecked (v_h r_h a b c : Option RawVal) (phi theta psi : ℝ) :
    Except PotentialErr LeeSutoData := do
  let v_h ← getParam v_h
  let r_h ← getParam r_h
  let a ← getParam a
  let b ← getParam b
  let c ← getParam c
  if a ≤ 0 ∨ b ≤ 0 ∨ c ≤ 0 then Except.error PotentialErr.invalidParameter
  else Except.ok (leesuto_init v_h r_h a b c phi theta psi)

theorem getParam_eq_error {p : Option RawVal} (h : isMissingOrNonFinite p) :
    getParam p = Except.error PotentialErr.invalidParameter := by
  match p with
  | none => rfl
  | some RawVal.nan => rfl
  | some RawVal.inf => rfl
  | some RawVal.neginf => rfl
  | some (RawVal.fin x) => exact absurd rfl (h x)

theorem bind_getParam_error {β : Type} {p : Option RawVal}
    (h : isMissingOrNonFinite p) (f : ℝ → Except PotentialErr β) :
    (getParam p >>= f) = Except.error PotentialErr.invalidParameter := by
  rw [getParam_eq_error h]
  rfl

theorem bind_getParam_ok {β : Type} (x : ℝ) (f : ℝ → Except PotentialErr β) :
    (getParam (some (RawVal.fin x)) >>= f) = f x :=
  rfl

/-- The hessian capability of `_HernquistPotential`: the `_hessian` method is
commented out in the source (lines 95–115), so none is supplied. -/
def hernquist_hessianImpl :
    Option (List (ℝ × ℝ × ℝ) → ℕ → List (Matrix (Fin 3) (Fin 3) ℝ)) :=
  none

/-- The hessian capability of `_MiyamotoNagaiPotential`: `_hessian` is
commented out in the source (lines 207–227), so none is supplied. -/
def miyamoto_hessianImpl :
    Option (List (ℝ × ℝ × ℝ) → ℕ → List (Matrix (Fin 3) (Fin 3) ℝ)) :=
  none

/-- The hessian capability of `_LeeSutoNFWPotential`: the class defines no
`_hessian` method at all, so none is supplied. -/
def leesuto_hessianImpl :
    Option (List (ℝ × ℝ × ℝ) → ℕ → List (Matrix (Fin 3) (Fin 3) ℝ)) :=
  none

/-- Modelled from the spec (§4.3, §7): the `hessian` dispatch of the
`PotentialModel` layer (base classes absent from `src/`): it fails with a
`NotImplemented` error when the bound kernel supplies no hessian. -/
def hessian_call
    (impl : Option (List (ℝ × ℝ × ℝ) → ℕ → List (Matrix (Fin 3) (Fin 3) ℝ)))
    (r : List (ℝ × ℝ × ℝ)) (n : ℕ) :
    Except PotentialErr (List (Matrix (Fin 3) (Fin 3) ℝ)) :=
  match impl with
  | none => Except.error PotentialErr.notImplemented
  | some f => Except.ok (f r n)

/-! ## Loop lemmas -/

theorem writeLoop_length {α : Type} (f : ℕ → α) (n : ℕ) (buf : List α) :
    (writeLoop f n buf).length = buf.length := by
  induction n with
  | zero => rfl
  | succ k ih => simp [writeLoop, ih]

theorem writeLoop_getElem? {α : Type} (f : ℕ → α) (n : ℕ) (buf : List α) (i : ℕ)
    (hi : i < n) (hlen : i < buf.length) :
    (writeLoop f n buf)[i]? = some (f i) := by
  induction n with
  | zero => omega
  | succ k ih =>
    show ((writeLoop f k buf).set k (f k))[i]? = some (f i)
    rcases Nat.lt_succ_iff_lt_or_eq.mp hi with h | h
    · rw [List.getElem?_set_ne (by omega)]
      exact ih h
    · subst h
      rw [List.getElem?_set_self]
      simp [writeLoop_length, hlen]

/-! ## Rotation lemmas -/

theorem rotation_matrix_z_transpose (t : ℝ) :
    (rotation_matrix_z t).transpose =
      !![Real.cos t, -Real.sin t, 0; Real.sin t, Real.cos t, 0; 0, 0, 1] := by
  ext i j
  fin_cases i <;> fin_cases j <;> rfl

theorem rotation_matrix_x_transpose (t : ℝ) :
    (rotation_matrix_x t).transpose =
      !![1, 0, 0; 0, Real.cos t, -Real.sin t; 0, Real.sin t, Real.cos t] := by
  ext i j
  fin_cases i <;> fin_cases j <;> rfl

theorem rotation_matrix_z_orth (t : ℝ) :
    rotation_matrix_z t * (rotation_matrix_z t).transpose = 1 := by
  rw [rotation_matrix_z_transpose, rotation_matrix_z, Matrix.mul_fin_three,
    Matrix.one_fin_three]
  ext i j
  fin_cases i <;> fin_cases j <;>
    simp [Matrix.vecHead, Matrix.vecTail] <;> nlinarith [Real.sin_sq_add_cos_sq t]

theorem rotation_matrix_x_orth (t : ℝ) :
    rotation_matrix_x t * (rotation_matrix_x t).transpose = 1 := by
  rw [rotation_matrix_x_transpose, rotation_matrix_x, Matrix.mul_fin_three,
    Matrix.one_fin_three]
  ext i j
  fin_cases i <;> fin_cases j <;>
    simp [Matrix.vecHead, Matrix.vecTail] <;> nlinarith [Real.sin_sq_add_cos_sq t]

theorem mul_triple_orth {A B C : Matrix (Fin 3) (Fin 3) ℝ}
    (hA : A * A.transpose = 1) (hB : B * B.transpose = 1)
    (hC : C * C.transpose = 1) : (A * B * C) * (A * B * C).transpose = 1 := by
  rw [Matrix.transpose_mul, Matrix.transpose_mul]
  have h1 : A * B * C * (C.transpose * (B.transpose * A.transpose))
      = A * (B * ((C * C.transpose) * (B.transpose * A.transpose))) := by
    simp only [Matrix.mul_assoc]
  rw [h1, hC, one_mul, ← Matrix.mul_assoc B, hB, one_mul, hA]

theorem leesuto_euler_R_orth (phi theta psi : ℝ) :
    leesuto_euler_R phi theta psi * (leesuto_euler_R phi theta psi).transpose = 1 := by
  rw [leesuto_euler_R]
  by_cases h : theta ≠ 0 ∨ phi ≠ 0 ∨ psi ≠ 0
  · rw [if_pos h]
    exact mul_triple_orth (rotation_matrix_z_orth psi) (rotation_matrix_x_orth theta)
      (rotation_matrix_z_orth phi)
  · rw [if_neg h]
    simp

theorem leesuto_euler_R_mul_inv (phi theta psi : ℝ) :
    leesuto_euler_R phi theta psi * (leesuto_euler_R phi theta psi)⁻¹ = 1 := by
  rw [Matrix.inv_eq_right_inv (leesuto_euler_R_orth phi theta psi)]
  exact leesuto_euler_R_orth phi theta psi

theorem applyMat_applyMat (A B : Matrix (Fin 3) (Fin 3) ℝ) (p : ℝ × ℝ × ℝ) :
    applyMat A (applyMat B p) = applyMat (A * B) p := by
  simp only [applyMat, Matrix.mul_apply, Fin.sum_univ_three]
  refine Prod.ext ?_ (Prod.ext ?_ ?_) <;> simp <;> ring

theorem applyMat_one (p : ℝ × ℝ × ℝ) : applyMat 1 p = p := by
  simp only [applyMat, Matrix.one_apply]
  refine Prod.ext ?_ (Prod.ext ?_ ?_) <;> simp

theorem leesuto_value_at_applyMat (P : LeeSutoData) (p : ℝ × ℝ × ℝ) :
    leesuto_value_at P p = leesuto_pot_nat P.v_h2 P.r_h P.e_b2 P.e_c2
      (applyMat P.R p).1 (applyMat P.R p).2.1 (applyMat P.R p).2.2 :=
  rfl

theorem leesuto_grad_at_applyMat (P : LeeSutoData) (p : ℝ × ℝ × ℝ) :
    leesuto_grad_at P p = applyMat P.Rinv (leesuto_grad_nat P.v_h2 P.r_h P.e_b2
      P.e_c2 (applyMat P.R p).1 (applyMat P.R p).2.1 (applyMat P.R p).2.2) :=
  rfl

theorem leesuto_euler_R_zero : leesuto_euler_R 0 0 0 = 1 := by
  rw [leesuto_euler_R, if_neg]
  simp

theorem leesuto_init_zero (v_h r_h a b c : ℝ) :
    leesuto_init v_h r_h a b c 0 0 0 = mkLeeSuto v_h r_h a b c 1 := by
  rw [leesuto_init, leesuto_euler_R_zero]

theorem leesuto_init_R (v_h r_h a b c phi theta psi : ℝ) :
    (leesuto_init v_h r_h a b c phi theta psi).R = leesuto_euler_R phi theta psi :=
  rfl

theorem leesuto_init_Rinv (v_h r_h a b c phi theta psi : ℝ) :
    (leesuto_init v_h r_h a b c phi theta psi).Rinv =
      (leesuto_euler_R phi theta psi)⁻¹ :=
  rfl

theorem leesuto_init_v_h2 (v_h r_h a b c phi theta psi : ℝ) :
    (leesuto_init v_h r_h a b c phi theta psi).v_h2 = v_h*v_h :=
  rfl

theorem leesuto_init_r_h (v_h r_h a b c phi theta psi : ℝ) :
    (leesuto_init v_h r_h a b c phi theta psi).r_h = r_h :=
  rfl

theorem leesuto_init_e_b2 (v_h r_h a b c phi theta psi : ℝ) :
    (leesuto_init v_h r_h a b c phi theta psi).e_b2 = 1 - (b/a)^2 :=
  rfl

theorem leesuto_init_e_c2 (v_h r_h a b c phi theta psi : ℝ) :
    (leesuto_init v_h r_h a b c phi theta psi).e_c2 = 1 - (c/a)^2 :=
  rfl

/-! ## Derivative lemmas: every analytic gradient is the exact derivative of
its analytic potential -/

theorem rpow_neg_three_halves {S : ℝ} (hS : 0 < S) :
    S ^ (-(3/2) : ℝ) = 1/(S * Real.sqrt S) := by
  rw [Real.rpow_neg hS.le, show ((3:ℝ)/2) = 1 + 1/2 by norm_num,
    Real.rpow_add hS, Real.rpow_one, ← Real.sqrt_eq_rpow, one_div]

theorem hernquist_hasDerivAt (GM c x y z : ℝ) (hs : 0 < x*x + y*y + z*z)
    (hc : 0 < c) :
    HasDerivAt (fun t => hernquist_pot GM c t y z) (hernquist_grad GM c x y z).1 x ∧
    HasDerivAt (fun t => hernquist_pot GM c x t z) (hernquist_grad GM c x y z).2.1 y ∧
    HasDerivAt (fun t => hernquist_pot GM c x y t) (hernquist_grad GM c x y z).2.2 z := by
  have hrpos : 0 < Real.sqrt (x*x + y*y + z*z) := Real.sqrt_pos.mpr hs
  have hrne : Real.sqrt (x*x + y*y + z*z) ≠ 0 := ne_of_gt hrpos
  have hrcne : Real.sqrt (x*x + y*y + z*z) + c ≠ 0 := by positivity
  refine ⟨?_, ?_, ?_⟩
  · have hinner : HasDerivAt (fun t : ℝ => t*t + y*y + z*z) (1*x + x*1) x :=
      (((hasDerivAt_id' x).mul (hasDerivAt_id' x)).add_const (y*y)).add_const (z*z)
    have hfull := (hasDerivAt_const x (-GM)).div
      ((hinner.sqrt (ne_of_gt hs)).add_const c) hrcne
    simp only [hernquist_pot]
    convert hfull using 1
    simp only [hernquist_grad, hernquist_fac]
    field_simp
    ring
  · have hinner : HasDerivAt (fun t : ℝ => x*x + t*t + z*z) (1*y + y*1) y :=
      (((hasDerivAt_const y (x*x)).add
        ((hasDerivAt_id' y).mul (hasDerivAt_id' y))).add_const (z*z)).congr_deriv
        (by ring)
    have hfull := (hasDerivAt_const y (-GM)).div
      ((hinner.sqrt (ne_of_gt hs)).add_const c) hrcne
    simp only [hernquist_pot]
    convert hfull using 1
    simp only [hernquist_grad, hernquist_fac]
    field_simp
    ring
  · have hinner : HasDerivAt (fun t : ℝ => x*x + y*y + t*t) (1*z + z*1) z :=
      ((hasDerivAt_const z (x*x + y*y)).add
        ((hasDerivAt_id' z).mul (hasDerivAt_id' z))).congr_deriv (by ring)
    have hfull := (hasDerivAt_const z (-GM)).div
      ((hinner.sqrt (ne_of_gt hs)).add_const c) hrcne
    simp only [hernquist_pot]
    convert hfull using 1
    simp only [hernquist_grad, hernquist_fac]
    field_simp
    ring

theorem miyamoto_hasDerivAt (GM a b2 x y z : ℝ) (hb2 : 0 < b2) (ha : 0 ≤ a) :
    HasDerivAt (fun t => miyamoto_pot GM a b2 t y z) (miyamoto_grad GM a b2 x y z).1 x ∧
    HasDerivAt (fun t => miyamoto_pot GM a b2 x t z) (miyamoto_grad GM a b2 x y z).2.1 y ∧
    HasDerivAt (fun t => miyamoto_pot GM a b2 x y t) (miyamoto_grad GM a b2 x y z).2.2 z := by
  have hzb : 0 < z*z + b2 := by nlinarith [mul_self_nonneg z]
  have hq : 0 < Real.sqrt (z*z + b2) := Real.sqrt_pos.mpr hzb
  have hzd : 0 < mn_zd a b2 z := by
    rw [mn_zd, mn_sqrtz]
    linarith
  have hS : 0 < x*x + y*y + mn_zd a b2 z * mn_zd a b2 z := by
    nlinarith [mul_self_nonneg x, mul_self_nonneg y, mul_pos hzd hzd]
  have hsS : 0 < Real.sqrt (x*x + y*y + mn_zd a b2 z * mn_zd a b2 z) :=
    Real.sqrt_pos.mpr hS
  refine ⟨?_, ?_, ?_⟩
  · have hinner : HasDerivAt
        (fun t : ℝ => t*t + y*y + mn_zd a b2 z * mn_zd a b2 z) (1*x + x*1) x :=
      (((hasDerivAt_id' x).mul (hasDerivAt_id' x)).add_const (y*y)).add_const _
    have hfull := (hasDerivAt_const x (-GM)).div (hinner.sqrt (ne_of_gt hS))
      (ne_of_gt hsS)
    simp only [miyamoto_pot]
    convert hfull using 1
    simp only [miyamoto_grad, mn_fac]
    rw [rpow_neg_three_halves hS, Real.sq_sqrt hS.le]
    field_simp
    ring
  · have hinner : HasDerivAt
        (fun t : ℝ => x*x + t*t + mn_zd a b2 z * mn_zd a b2 z) (1*y + y*1) y :=
      (((hasDerivAt_const y (x*x)).add
        ((hasDerivAt_id' y).mul (hasDerivAt_id' y))).add_const _).congr_deriv (by ring)
    have hfull := (hasDerivAt_const y (-GM)).div (hinner.sqrt (ne_of_gt hS))
      (ne_of_gt hsS)
    simp only [miyamoto_pot]
    convert hfull using 1
    simp only [miyamoto_grad, mn_fac]
    rw [rpow_neg_three_halves hS, Real.sq_sqrt hS.le]
    field_simp
    ring
  · have hin1 : HasDerivAt (fun t : ℝ => t*t + b2) (1*z + z*1) z :=
      ((hasDerivAt_id' z).mul (hasDerivAt_id' z)).add_const b2
    have hzd' := (hin1.sqrt (ne_of_gt hzb)).const_add a
    have hSin := (hasDerivAt_const z (x*x + y*y)).add (hzd'.mul hzd')
    have hSz : 0 < x*x + y*y +
        (a + Real.sqrt (z*z + b2)) * (a + Real.sqrt (z*z + b2)) := by
      rw [show a + Real.sqrt (z*z + b2) = mn_zd a b2 z from rfl]
      exact hS
    have hfull := (hasDerivAt_const z (-GM)).div (hSin.sqrt (ne_of_gt hSz))
      (ne_of_gt (Real.sqrt_pos.mpr hSz))
    simp only [miyamoto_pot, mn_zd, mn_sqrtz]
    convert hfull using 1
    simp only [miyamoto_grad, mn_fac, mn_zd, mn_sqrtz]
    rw [rpow_neg_three_halves hSz, Real.sq_sqrt hSz.le]
    field_simp
    ring

set_option maxHeartbeats 2000000 in
theorem leesuto_hasDerivAt_master (v rh eb ec : ℝ) {g p q : ℝ → ℝ} {G' P' Q' t : ℝ}
    (hg : HasDerivAt g G' t) (hp : HasDerivAt p P' t) (hq : HasDerivAt q Q' t)
    (hG : 0 < g t) (hrh : 0 < rh) :
    HasDerivAt
      (fun s => v*((eb/2 + ec/2)*((1/(g s/rh) - 1/(g s/rh)^3)*Real.log (g s/rh + 1) - 1 +
          (2*(g s/rh)^2 - 3*(g s/rh) + 6)/(6*(g s/rh)^2)) +
        (eb*(p s)^2/(2*(g s)*(g s)) + ec*(q s)*(q s)/(2*(g s)*(g s)))*(((g s/rh)*(g s/rh) - 3*(g s/rh) - 6)/(2*(g s/rh)*(g s/rh)*((g s/rh) + 1)) +
          3*Real.log (g s/rh + 1)/(g s/rh)/(g s/rh)/(g s/rh)) - Real.log (g s/rh + 1)/(g s/rh)))
      (v*((eb/2 + ec/2)*((G'/rh) * ((-1/(g t/rh)^2 + 3/(g t/rh)^4)*Real.log (g t/rh + 1) +
            ((g t/rh) - 4)/(2*(g t/rh)^3)) + (1/(g t/rh) - 1/(g t/rh)^3)*(G'/(g t + rh))) +
        ((2*eb*(p t)*P' + 2*ec*(q t)*Q')/(2*(g t)*(g t)) -
            (eb*(p t)^2 + ec*(q t)*(q t))*G'/(g t)^3) *
          (((g t/rh)*(g t/rh) - 3*(g t/rh) - 6)/(2*(g t/rh)*(g t/rh)*((g t/rh) + 1)) +
            3*Real.log (g t/rh + 1)/(g t/rh)^3) +
        ((eb*(p t)^2 + ec*(q t)*(q t))/(2*(g t)*(g t))) *
          ((G'/rh)*((-(g t/rh)^3 + 6*(g t/rh)^2 + 21*(g t/rh) + 12)/(2*(g t/rh)^3*((g t/rh) + 1)^2) -
            9*Real.log (g t/rh + 1)/(g t/rh)^4) + 3*G'/((g t + rh)*(g t/rh)^3)) -
        (G'/((g t + rh)*(g t/rh)) - Real.log (g t/rh + 1)*(G'/rh)/(g t/rh)^2))) t := by
  have hGne : g t ≠ 0 := ne_of_gt hG
  have hrhne : rh ≠ 0 := ne_of_gt hrh
  have hU0 : 0 < g t / rh := div_pos hG hrh
  have hUne : g t / rh ≠ 0 := ne_of_gt hU0
  have hU1pos : 0 < g t / rh + 1 := by linarith
  have hU1ne : g t / rh + 1 ≠ 0 := ne_of_gt hU1pos
  have hGrh : 0 < g t + rh := by linarith
  have hGrhne : g t + rh ≠ 0 := ne_of_gt hGrh
  have hU := hg.div_const rh
  have hU1d := hU.add_const 1
  have hL := hU1d.log hU1ne
  have hA1 := (hasDerivAt_const t (1:ℝ)).div hU hUne
  have hA2 := (hasDerivAt_const t (1:ℝ)).div (hU.pow 3) (pow_ne_zero 3 hUne)
  have hA3 := ((hA1.sub hA2).mul hL).sub_const 1
  have hA4 := (((hU.pow 2).const_mul 2).sub (hU.const_mul 3)).add_const 6
  have hA6 := hA4.div ((hU.pow 2).const_mul 6)
    (mul_ne_zero (by norm_num) (pow_ne_zero 2 hUne))
  have hA := hA3.add hA6
  have hdenne : 2*(g t)*(g t) ≠ 0 :=
    mul_ne_zero (mul_ne_zero two_ne_zero hGne) hGne
  have hden := (hg.const_mul 2).mul hg
  have hW1 := ((hp.pow 2).const_mul eb).div hden hdenne
  have hW2 := ((hq.const_mul ec).mul hq).div hden hdenne
  have hW := hW1.add hW2
  have hBn := ((hU.mul hU).sub (hU.const_mul 3)).sub_const 6
  have hBd := ((hU.const_mul 2).mul hU).mul hU1d
  have hBdne : 2*(g t/rh)*(g t/rh)*((g t/rh) + 1) ≠ 0 :=
    ne_of_gt (mul_pos (mul_pos (mul_pos two_pos hU0) hU0) hU1pos)
  have hB1 := hBn.div hBd hBdne
  have hB2 := (((hL.const_mul 3).div hU hUne).div hU hUne).div hU hUne
  have hB := hB1.add hB2
  have hN := hL.div hU hUne
  have hfull := (((hA.const_mul (eb/2 + ec/2)).add (hW.mul hB)).sub hN).const_mul v
  convert hfull using 1
  field_simp
  ring

set_option maxHeartbeats 4000000 in
theorem leesuto_hasDerivAt_x (v rh eb ec x y z : ℝ) (hs : 0 < x*x + y*y + z*z)
    (hrh : 0 < rh) :
    HasDerivAt (fun t => leesuto_pot_nat v rh eb ec t y z)
      (leesuto_grad_nat v rh eb ec x y z).1 x := by
  have hr : 0 < Real.sqrt (x*x + y*y + z*z) := Real.sqrt_pos.mpr hs
  have hrne : Real.sqrt (x*x + y*y + z*z) ≠ 0 := ne_of_gt hr
  have hrhne : rh ≠ 0 := ne_of_gt hrh
  have hg0 := ((((hasDerivAt_id' x).mul (hasDerivAt_id' x)).add_const
    (y*y)).add_const (z*z)).sqrt (ne_of_gt hs)
  have hg : HasDerivAt (fun s => Real.sqrt (s*s + y*y + z*z))
      (x / Real.sqrt (x*x + y*y + z*z)) x := hg0.congr_deriv (by field_simp; ring)
  have h := leesuto_hasDerivAt_master v rh eb ec hg (hasDerivAt_const x y)
    (hasDerivAt_const x z) hr hrh
  simp only [leesuto_pot_nat]
  convert h using 1
  simp only [leesuto_grad_nat]
  set r := Real.sqrt (x*x + y*y + z*z) with hrdef
  have hr2 : x*x + y*y + z*z = r*r := (Real.mul_self_sqrt hs.le).symm
  rw [hr2, show (r + rh)/rh = r/rh + 1 from by field_simp]
  field_simp
  ring

set_option maxHeartbeats 4000000 in
theorem leesuto_hasDerivAt_y (v rh eb ec x y z : ℝ) (hs : 0 < x*x + y*y + z*z)
    (hrh : 0 < rh) :
    HasDerivAt (fun t => leesuto_pot_nat v rh eb ec x t z)
      (leesuto_grad_nat v rh eb ec x y z).2.1 y := by
  have hr : 0 < Real.sqrt (x*x + y*y + z*z) := Real.sqrt_pos.mpr hs
  have hrne : Real.sqrt (x*x + y*y + z*z) ≠ 0 := ne_of_gt hr
  have hrhne : rh ≠ 0 := ne_of_gt hrh
  have hg0 := (((hasDerivAt_const y (x*x)).add
    ((hasDerivAt_id' y).mul (hasDerivAt_id' y))).add_const (z*z)).sqrt (ne_of_gt hs)
  have hg : HasDerivAt (fun s => Real.sqrt (x*x + s*s + z*z))
      (y / Real.sqrt (x*x + y*y + z*z)) y := hg0.congr_deriv (by field_simp; ring)
  have h := leesuto_hasDerivAt_master v rh eb ec hg (hasDerivAt_id' y)
    (hasDerivAt_const y z) hr hrh
  simp only [leesuto_pot_nat]
  convert h using 1
  simp only [leesuto_grad_nat]
  set r := Real.sqrt (x*x + y*y + z*z) with hrdef
  have hr2 : x*x + y*y + z*z = r*r := (Real.mul_self_sqrt hs.le).symm
  rw [hr2, show (r + rh)/rh = r/rh + 1 from by field_simp]
  field_simp
  ring

set_option maxHeartbeats 4000000 in
theorem leesuto_hasDerivAt_z (v rh eb ec x y z : ℝ) (hs : 0 < x*x + y*y + z*z)
    (hrh : 0 < rh) :
    HasDerivAt (fun t => leesuto_pot_nat v rh eb ec x y t)
      (leesuto_grad_nat v rh eb ec x y z).2.2 z := by
  have hr : 0 < Real.sqrt (x*x + y*y + z*z) := Real.sqrt_pos.mpr hs
  have hrne : Real.sqrt (x*x + y*y + z*z) ≠ 0 := ne_of_gt hr
  have hrhne : rh ≠ 0 := ne_of_gt hrh
  have hg0 := ((hasDerivAt_const z (x*x + y*y)).add
    ((hasDerivAt_id' z).mul (hasDerivAt_id' z))).sqrt (ne_of_gt hs)
  have hg : HasDerivAt (fun s => Real.sqrt (x*x + y*y + s*s))
      (z / Real.sqrt (x*x + y*y + z*z)) z := hg0.congr_deriv (by field_simp; ring)
  have h := leesuto_hasDerivAt_master v rh eb ec hg (hasDerivAt_const z y)
    (hasDerivAt_id' z) hr hrh
  simp only [leesuto_pot_nat]
  convert h using 1
  simp only [leesuto_grad_nat]
  set r := Real.sqrt (x*x + y*y + z*z) with hrdef
  have hr2 : x*x + y*y + z*z = r*r := (Real.mul_self_sqrt hs.le).symm
  rw [hr2, show (r + rh)/rh = r/rh + 1 from by field_simp]
  field_simp
  ring

/-! ## Claim theorems -/

/-- C2: the Hernquist kernel's `_value` writes `pot[i] = -GM/(R + c)` with
`R = sqrt(x*x + y*y + z*z)` and its `_gradient` writes
`grad[i] = GM/((R+c)^2 * R) * (x, y, z)` for every index `i < nparticles`
inside the buffer; concretely, with `G = m = c = 1` at position `(1,0,0)`
the value is `-0.5` and the gradient is `(0.25, 0, 0)`. -/
theorem C2_hernquist_value_gradient :
    (∀ (GM c : ℝ) (r : List (ℝ × ℝ × ℝ)) (pot : List ℝ) (n i : ℕ),
      i < n → i < pot.length →
      ((hernquist_value_call GM c r pot n).2)[i]? =
        some (-GM / (Real.sqrt ((posAt r i).1 * (posAt r i).1 +
          (posAt r i).2.1 * (posAt r i).2.1 + (posAt r i).2.2 * (posAt r i).2.2) + c))) ∧
    (∀ (GM c : ℝ) (r : List (ℝ × ℝ × ℝ)) (grad : List (ℝ × ℝ × ℝ)) (n i : ℕ),
      i < n → i < grad.length →
      ((hernquist_gradient_call GM c r grad n).2)[i]? =
        some (hernquist_fac GM c (posAt r i).1 (posAt r i).2.1 (posAt r i).2.2 *
                (posAt r i).1,
              hernquist_fac GM c (posAt r i).1 (posAt r i).2.1 (posAt r i).2.2 *
                (posAt r i).2.1,
              hernquist_fac GM c (posAt r i).1 (posAt r i).2.1 (posAt r i).2.2 *
                (posAt r i).2.2)) ∧
    ((hernquist_value_call (mkHernquist 1 1 1).GM (mkHernquist 1 1 1).c
        [(1, 0, 0)] [0] 1).2 = [-(0.5 : ℝ)] ∧
     (hernquist_gradient_call (mkHernquist 1 1 1).GM (mkHernquist 1 1 1).c
        [(1, 0, 0)] [(0, 0, 0)] 1).2 = [((0.25 : ℝ), (0 : ℝ), (0 : ℝ))]) := by
  refine ⟨?_, ?_, ?_, ?_⟩
  · intro GM c r pot n i hi hlen
    rw [show (hernquist_value_call GM c r pot n).2 = writeLoop
      (fun i => hernquist_pot GM c (posAt r i).1 (posAt r i).2.1 (posAt r i).2.2) n pot
      from rfl]
    rw [writeLoop_getElem? _ _ _ _ hi hlen]
    rfl
  · intro GM c r grad n i hi hlen
    rw [show (hernquist_gradient_call GM c r grad n).2 = writeLoop
      (fun i => hernquist_grad GM c (posAt r i).1 (posAt r i).2.1 (posAt r i).2.2) n grad
      from rfl]
    rw [writeLoop_getElem? _ _ _ _ hi hlen]
    rfl
  · show ([(0 : ℝ)].set 0 _) = _
    have h1 : Real.sqrt (1*1 + 0*0 + 0*0) = 1 := by
      norm_num
    simp only [hernquist_pot, posAt, mkHernquist, List.getD, List.set]
    norm_num
  · show ([((0:ℝ), (0:ℝ), (0:ℝ))].set 0 _) = _
    have h1 : Real.sqrt (1*1 + 0*0 + 0*0) = 1 := by
      norm_num
    simp only [hernquist_grad, hernquist_fac, posAt, mkHernquist, List.getD, List.set]
    norm_num

/-- C2 witness: the indexed write equations applied at the concrete batch
`r = [(1,0,0)]`, `n = 1`, `i = 0`. -/
theorem C2_hernquist_value_gradient_witness :
    ((hernquist_value_call 1 1 [((1:ℝ), (0:ℝ), (0:ℝ))] [0] 1).2)[0]? =
      some (-1 / (Real.sqrt ((posAt [((1:ℝ), (0:ℝ), (0:ℝ))] 0).1 *
        (posAt [((1:ℝ), (0:ℝ), (0:ℝ))] 0).1 +
        (posAt [((1:ℝ), (0:ℝ), (0:ℝ))] 0).2.1 * (posAt [((1:ℝ), (0:ℝ), (0:ℝ))] 0).2.1 +
        (posAt [((1:ℝ), (0:ℝ), (0:ℝ))] 0).2.2 * (posAt [((1:ℝ), (0:ℝ), (0:ℝ))] 0).2.2) + 1)) :=
  C2_hernquist_value_gradient.1 1 1 [((1:ℝ), (0:ℝ), (0:ℝ))] [0] 1 0
    (by norm_num) (by norm_num)

/-- C3: the Miyamoto–Nagai kernel's `_value` writes
`pot[i] = -GM/sqrt(x*x + y*y + zd*zd)` with `zd = a + sqrt(z*z + b2)`, and its
`_gradient` writes `(fac*x, fac*y, fac*z*(1 + a/sqrt(z*z + b2)))` with
`fac = GM*(x*x + y*y + zd*zd)^(-1.5)`; concretely with `G = m = a = 1`, `b = 0`
at position `(0,0,0)` the value is `-1.0`. -/
theorem C3_miyamoto_value_gradient :
    (∀ (GM a b2 : ℝ) (r : List (ℝ × ℝ × ℝ)) (pot : List ℝ) (n i : ℕ),
      i < n → i < pot.length →
      ((miyamoto_value_call GM a b2 r pot n).2)[i]? =
        some (-GM / Real.sqrt ((posAt r i).1 * (posAt r i).1 +
          (posAt r i).2.1 * (posAt r i).2.1 +
          mn_zd a b2 (posAt r i).2.2 * mn_zd a b2 (posAt r i).2.2))) ∧
    (∀ (GM a b2 : ℝ) (r : List (ℝ × ℝ × ℝ)) (grad : List (ℝ × ℝ × ℝ)) (n i : ℕ),
      i < n → i < grad.length →
      ((miyamoto_gradient_call GM a b2 r grad n).2)[i]? =
        some (mn_fac GM a b2 (posAt r i).1 (posAt r i).2.1 (posAt r i).2.2 *
                (posAt r i).1,
              mn_fac GM a b2 (posAt r i).1 (posAt r i).2.1 (posAt r i).2.2 *
                (posAt r i).2.1,
              mn_fac GM a b2 (posAt r i).1 (posAt r i).2.1 (posAt r i).2.2 *
                (posAt r i).2.2 * (1 + a / mn_sqrtz b2 (posAt r i).2.2))) ∧
    (miyamoto_value_call (mkMiyamoto 1 1 1 0).GM (mkMiyamoto 1 1 1 0).a
        (mkMiyamoto 1 1 1 0).b2 [(0, 0, 0)] [0] 1).2 = [-(1 : ℝ)] := by
  refine ⟨?_, ?_, ?_⟩
  · intro GM a b2 r pot n i hi hlen
    rw [show (miyamoto_value_call GM a b2 r pot n).2 = writeLoop
      (fun i => miyamoto_pot GM a b2 (posAt r i).1 (posAt r i).2.1 (posAt r i).2.2) n pot
      from rfl]
    rw [writeLoop_getElem? _ _ _ _ hi hlen]
    rfl
  · intro GM a b2 r grad n i hi hlen
    rw [show (miyamoto_gradient_call GM a b2 r grad n).2 = writeLoop
      (fun i => miyamoto_grad GM a b2 (posAt r i).1 (posAt r i).2.1 (posAt r i).2.2) n grad
      from rfl]
    rw [writeLoop_getElem? _ _ _ _ hi hlen]
    rfl
  · show ([(0 : ℝ)].set 0 _) = _
    simp only [miyamoto_pot, mn_zd, mn_sqrtz, posAt, mkMiyamoto, List.getD, List.set]
    norm_num

/-- C3 witness: the indexed value-write equation applied at the concrete batch
`r = [(0,0,0)]`, `n = 1`, `i = 0` with `GM = a = 1`, `b2 = 0`. -/
theorem C3_miyamoto_value_gradient_witness :
    ((miyamoto_value_call 1 1 0 [((0:ℝ), (0:ℝ), (0:ℝ))] [0] 1).2)[0]? =
      some (-1 / Real.sqrt ((posAt [((0:ℝ), (0:ℝ), (0:ℝ))] 0).1 *
        (posAt [((0:ℝ), (0:ℝ), (0:ℝ))] 0).1 +
        (posAt [((0:ℝ), (0:ℝ), (0:ℝ))] 0).2.1 * (posAt [((0:ℝ), (0:ℝ), (0:ℝ))] 0).2.1 +
        mn_zd 1 0 (posAt [((0:ℝ), (0:ℝ), (0:ℝ))] 0).2.2 *
          mn_zd 1 0 (posAt [((0:ℝ), (0:ℝ), (0:ℝ))] 0).2.2)) :=
  C3_miyamoto_value_gradient.1 1 1 0 [((0:ℝ), (0:ℝ), (0:ℝ))] [0] 1 0
    (by norm_num) (by norm_num)

/-- C8: the Hernquist value is spherically symmetric (equal at equal radius,
and the gradient factor multiplying `(x, y, z)` depends on the position only
through the radius), and the Miyamoto–Nagai value is axisymmetric about `z`
(equal at equal `x*x + y*y` and equal `z`). -/
theorem C8_symmetry :
    (∀ (GM c x y z x' y' z' : ℝ),
      Real.sqrt (x*x + y*y + z*z) = Real.sqrt (x'*x' + y'*y' + z'*z') →
      hernquist_pot GM c x y z = hernquist_pot GM c x' y' z') ∧
    (∀ (GM c x y z x' y' z' : ℝ),
      Real.sqrt (x*x + y*y + z*z) = Real.sqrt (x'*x' + y'*y' + z'*z') →
      hernquist_fac GM c x y z = hernquist_fac GM c x' y' z') ∧
    (∀ (GM a b2 x y z x' y' : ℝ),
      x*x + y*y = x'*x' + y'*y' →
      miyamoto_pot GM a b2 x y z = miyamoto_pot GM a b2 x' y' z) := by
  refine ⟨?_, ?_, ?_⟩
  · intro GM c x y z x' y' z' h
    simp only [hernquist_pot, h]
  · intro GM c x y z x' y' z' h
    simp only [hernquist_fac, h]
  · intro GM a b2 x y z x' y' h
    simp only [miyamoto_pot]
    rw [show x*x + y*y + mn_zd a b2 z * mn_zd a b2 z
        = x'*x' + y'*y' + mn_zd a b2 z * mn_zd a b2 z by rw [h]]

/-- C8 witness: symmetry instances at `(1,0,0)` versus `(0,1,0)`. -/
theorem C8_symmetry_witness :
    hernquist_pot 1 1 1 0 0 = hernquist_pot 1 1 0 1 0 ∧
    miyamoto_pot 1 1 1 1 0 5 = miyamoto_pot 1 1 1 0 1 5 :=
  ⟨C8_symmetry.1 1 1 1 0 0 0 1 0 (by norm_num),
   C8_symmetry.2.2 1 1 1 1 0 5 0 1 (by norm_num)⟩

/-- C9: with `nparticles = 0` every kernel call returns the output buffer
unchanged, and for every `nparticles` no kernel call mutates the position
batch (the first component of the call's state is returned as passed). -/
theorem C9_zero_batch_and_input_preserved :
    (∀ (GM c : ℝ) (r : List (ℝ × ℝ × ℝ)) (pot : List ℝ) (grad : List (ℝ × ℝ × ℝ)),
      (hernquist_value_call GM c r pot 0).2 = pot ∧
      (hernquist_gradient_call GM c r grad 0).2 = grad) ∧
    (∀ (GM a b2 : ℝ) (r : List (ℝ × ℝ × ℝ)) (pot : List ℝ) (grad : List (ℝ × ℝ × ℝ)),
      (miyamoto_value_call GM a b2 r pot 0).2 = pot ∧
      (miyamoto_gradient_call GM a b2 r grad 0).2 = grad) ∧
    (∀ (P : LeeSutoData) (r : List (ℝ × ℝ × ℝ)) (pot : List ℝ) (grad : List (ℝ × ℝ × ℝ)),
      (leesuto_value_call P r pot 0).2 = pot ∧
      (leesuto_gradient_call P r grad 0).2 = grad) ∧
    (∀ (GM c a b2 : ℝ) (P : LeeSutoData) (r : List (ℝ × ℝ × ℝ)) (pot : List ℝ)
        (grad : List (ℝ × ℝ × ℝ)) (n : ℕ),
      (hernquist_value_call GM c r pot n).1 = r ∧
      (hernquist_gradient_call GM c r grad n).1 = r ∧
      (miyamoto_value_call GM a b2 r pot n).1 = r ∧
      (miyamoto_gradient_call GM a b2 r grad n).1 = r ∧
      (leesuto_value_call P r pot n).1 = r ∧
      (leesuto_gradient_call P r grad n).1 = r) := by
  refine ⟨fun _ _ _ _ _ => ⟨rfl, rfl⟩, fun _ _ _ _ _ _ => ⟨rfl, rfl⟩,
    fun _ _ _ _ => ⟨rfl, rfl⟩,
    fun _ _ _ _ _ _ _ _ _ => ⟨rfl, rfl, rfl, rfl, rfl, rfl⟩⟩

/-- C10: in the Miyamoto–Nagai gradient the `z`-component divides by
`sqrtz = sqrt(z*z + b2)`; with `b = 0` this divisor is `0` at every `z = 0`
(the term `a / sqrtz` is a division by zero), while the value at such a
position is the well-defined finite number `-GM / sqrt(x*x + y*y + a*a)`
(its denominator is positive when `0 < a`); for every `b ≠ 0` the divisor is
positive at all positions. -/
theorem C10_miyamoto_b_zero_division :
    (∀ b z : ℝ, b = 0 → z = 0 → mn_sqrtz (b*b) z = 0) ∧
    (∀ b z : ℝ, b ≠ 0 → 0 < mn_sqrtz (b*b) z) ∧
    (∀ GM a x y : ℝ, 0 < a →
      miyamoto_pot GM a (0*0) x y 0 = -GM / Real.sqrt (x*x + y*y + a*a) ∧
      0 < Real.sqrt (x*x + y*y + a*a)) := by
  refine ⟨?_, ?_, ?_⟩
  · intro b z hb hz
    subst hb; subst hz
    simp [mn_sqrtz]
  · intro b z hb
    have h : 0 < z*z + b*b := by
      have h1 := mul_self_nonneg z
      have h2 := mul_self_pos.mpr hb
      linarith
    exact Real.sqrt_pos.mpr h
  · intro GM a x y ha
    constructor
    · have hzd : mn_zd a (0*0) 0 = a := by
        simp [mn_zd, mn_sqrtz]
      rw [miyamoto_pot, hzd]
    · have h : 0 < x*x + y*y + a*a := by
        have h1 := mul_self_nonneg x
        have h2 := mul_self_nonneg y
        have h3 := mul_pos ha ha
        linarith
      exact Real.sqrt_pos.mpr h

/-- C10 witness: the divisor vanishes at `b = 0`, `z = 0`; it is positive at
`b = 1`; the value at `GM = 1`, `a = 1`, position `(0,0,0)` is finite. -/
theorem C10_miyamoto_b_zero_division_witness :
    mn_sqrtz ((0:ℝ)*0) 0 = 0 ∧ 0 < mn_sqrtz ((1:ℝ)*1) 0 ∧
    (miyamoto_pot 1 1 ((0:ℝ)*0) 0 0 0 = -1 / Real.sqrt (0*0 + 0*0 + 1*1) ∧
      (0:ℝ) < Real.sqrt (0*0 + 0*0 + 1*1)) :=
  ⟨C10_miyamoto_b_zero_division.1 0 0 rfl rfl,
   C10_miyamoto_b_zero_division.2.1 1 0 (by norm_num),
   C10_miyamoto_b_zero_division.2.2 1 1 0 0 (by norm_num)⟩

/-- C6: model construction fails with `InvalidParameter` whenever a required
physical parameter is missing or non-finite (NaN/Inf), for each kernel, and
whenever a Lee–Suto shape axis is non-positive. -/
theorem C6_invalid_parameter :
    (∀ G m c : Option RawVal,
      isMissingOrNonFinite G ∨ isMissingOrNonFinite m ∨ isMissingOrNonFinite c →
      mkHernquistChecked G m c = Except.error PotentialErr.invalidParameter) ∧
    (∀ G m a b : Option RawVal,
      isMissingOrNonFinite G ∨ isMissingOrNonFinite m ∨ isMissingOrNonFinite a ∨
        isMissingOrNonFinite b →
      mkMiyamotoChecked G m a b = Except.error PotentialErr.invalidParameter) ∧
    (∀ v_h r_h a b c : Option RawVal, ∀ phi theta psi : ℝ,
      isMissingOrNonFinite v_h ∨ isMissingOrNonFinite r_h ∨ isMissingOrNonFinite a ∨
        isMissingOrNonFinite b ∨ isMissingOrNonFinite c →
      mkLeeSutoChecked v_h r_h a b c phi theta psi =
        Except.error PotentialErr.invalidParameter) ∧
    (∀ v_h r_h a b c phi theta psi : ℝ, a ≤ 0 ∨ b ≤ 0 ∨ c ≤ 0 →
      mkLeeSutoChecked (some (RawVal.fin v_h)) (some (RawVal.fin r_h))
        (some (RawVal.fin a)) (some (RawVal.fin b)) (some (RawVal.fin c))
        phi theta psi = Except.error PotentialErr.invalidParameter) := by
  refine ⟨?_, ?_, ?_, ?_⟩
  · intro G m c h
    by_cases hG : isMissingOrNonFinite G
    · exact bind_getParam_error hG _
    · obtain ⟨g, hg⟩ : ∃ x : ℝ, G = some (RawVal.fin x) := by
        by_contra hc
        push_neg at hc
        exact hG hc
      subst hg
      rw [show mkHernquistChecked (some (RawVal.fin g)) m c
          = (getParam m >>= fun m => getParam c >>= fun c =>
              Except.ok (mkHernquist g m c)) from rfl]
      by_cases hm : isMissingOrNonFinite m
      · exact bind_getParam_error hm _
      · obtain ⟨mm, hmm⟩ : ∃ x : ℝ, m = some (RawVal.fin x) := by
          by_contra hc
          push_neg at hc
          exact hm hc
        subst hmm
        rw [bind_getParam_ok]
        have hc' : isMissingOrNonFinite c := by
          rcases h with h | h | h
          · exact absurd h (by intro hh; exact hh g rfl)
          · exact absurd h (by intro hh; exact hh mm rfl)
          · exact h
        exact bind_getParam_error hc' _
  · intro G m a b h
    by_cases hG : isMissingOrNonFinite G
    · exact bind_getParam_error hG _
    · obtain ⟨g, hg⟩ : ∃ x : ℝ, G = some (RawVal.fin x) := by
        by_contra hc
        push_neg at hc
        exact hG hc
      subst hg
      rw [show mkMiyamotoChecked (some (RawVal.fin g)) m a b
          = (getParam m >>= fun m => getParam a >>= fun a => getParam b >>= fun b =>
              Except.ok (mkMiyamoto g m a b)) from rfl]
      by_cases hm : isMissingOrNonFinite m
      · exact bind_getParam_error hm _
      · obtain ⟨mm, hmm⟩ : ∃ x : ℝ, m = some (RawVal.fin x) := by
          by_contra hc
          push_neg at hc
          exact hm hc
        subst hmm
        rw [bind_getParam_ok]
        by_cases ha : isMissingOrNonFinite a
        · exact bind_getParam_error ha _
        · obtain ⟨aa, haa⟩ : ∃ x : ℝ, a = some (RawVal.fin x) := by
            by_contra hc
            push_neg at hc
            exact ha hc
          subst haa
          rw [bind_getParam_ok]
          have hb' : isMissingOrNonFinite b := by
            rcases h with h | h | h | h
            · exact absurd h (by intro hh; exact hh g rfl)
            · exact absurd h (by intro hh; exact hh mm rfl)
            · exact absurd h (by intro hh; exact hh aa rfl)
            · exact h
          exact bind_getParam_error hb' _
  · intro v_h r_h a b c phi theta psi h
    by_cases hv : isMissingOrNonFinite v_h
    · exact bind_getParam_error hv _
    · obtain ⟨vv, hvv⟩ : ∃ x : ℝ, v_h = some (RawVal.fin x) := by
        by_contra hc
        push_neg at hc
        exact hv hc
      subst hvv
      rw [show mkLeeSutoChecked (some (RawVal.fin vv)) r_h a b c phi theta psi
          = (getParam r_h >>= fun r_h => getParam a >>= fun a =>
              getParam b >>= fun b => getParam c >>= fun c =>
              if a ≤ 0 ∨ b ≤ 0 ∨ c ≤ 0 then Except.error PotentialErr.invalidParameter
              else Except.ok (leesuto_init vv r_h a b c phi theta psi)) from rfl]
      by_cases hr : isMissingOrNonFinite r_h
      · exact bind_getParam_error hr _
      · obtain ⟨rr, hrr⟩ : ∃ x : ℝ, r_h = some (RawVal.fin x) := by
          by_contra hc
          push_neg at hc
          exact hr hc
        subst hrr
        rw [bind_getParam_ok]
        by_cases ha : isMissingOrNonFinite a
        · exact bind_getParam_error ha _
        · obtain ⟨aa, haa⟩ : ∃ x : ℝ, a = some (RawVal.fin x) := by
            by_contra hc
            push_neg at hc
            exact ha hc
          subst haa
          rw [bind_getParam_ok]
          by_cases hb : isMissingOrNonFinite b
          · exact bind_getParam_error hb _
          · obtain ⟨bb, hbb⟩ : ∃ x : ℝ, b = some (RawVal.fin x) := by
              by_contra hc
              push_neg at hc
              exact hb hc
            subst hbb
            rw [bind_getParam_ok]
            have hc' : isMissingOrNonFinite c := by
              rcases h with h | h | h | h | h
              · exact absurd h (by intro hh; exact hh vv rfl)
              · exact absurd h (by intro hh; exact hh rr rfl)
              · exact absurd h (by intro hh; exact hh aa rfl)
              · exact absurd h (by intro hh; exact hh bb rfl)
              · exact h
            exact bind_getParam_error hc' _
  · intro v_h r_h a b c phi theta psi h
    rw [show mkLeeSutoChecked (some (RawVal.fin v_h)) (some (RawVal.fin r_h))
        (some (RawVal.fin a)) (some (RawVal.fin b)) (some (RawVal.fin c)) phi theta psi
        = (if a ≤ 0 ∨ b ≤ 0 ∨ c ≤ 0 then Except.error PotentialErr.invalidParameter
           else Except.ok (leesuto_init v_h r_h a b c phi theta psi)) from rfl]
    exact if_pos h

/-- C6 witness: a missing Hernquist mass, a NaN Miyamoto–Nagai scale, a missing
Lee–Suto `v_h` and a non-positive Lee–Suto axis `c` each fail. -/
theorem C6_invalid_parameter_witness :
    mkHernquistChecked (some (RawVal.fin 1)) none (some (RawVal.fin 1)) =
      Except.error PotentialErr.invalidParameter ∧
    mkMiyamotoChecked (some (RawVal.fin 1)) (some (RawVal.fin 1))
      (some RawVal.nan) (some (RawVal.fin 1)) =
      Except.error PotentialErr.invalidParameter ∧
    mkLeeSutoChecked none (some (RawVal.fin 1)) (some (RawVal.fin 1))
      (some (RawVal.fin 1)) (some (RawVal.fin 1)) 0 0 0 =
      Except.error PotentialErr.invalidParameter ∧
    mkLeeSutoChecked (some (RawVal.fin 1)) (some (RawVal.fin 1))
      (some (RawVal.fin 1)) (some (RawVal.fin 1)) (some (RawVal.fin (-1))) 0 0 0 =
      Except.error PotentialErr.invalidParameter :=
  ⟨C6_invalid_parameter.1 _ _ _ (Or.inr (Or.inl (fun x h => by cases h))),
   C6_invalid_parameter.2.1 _ _ _ _
     (Or.inr (Or.inr (Or.inl (fun x h => by cases h)))),
   C6_invalid_parameter.2.2.1 _ _ _ _ _ 0 0 0 (Or.inl (fun x h => by cases h)),
   C6_invalid_parameter.2.2.2 1 1 1 1 (-1) 0 0 0 (Or.inr (Or.inr (by norm_num)))⟩

/-- C7: for each of the three kernels the hessian request fails with the
`NotImplemented` error kind and never returns a result. -/
theorem C7_hessian_not_implemented :
    (∀ (r : List (ℝ × ℝ × ℝ)) (n : ℕ),
      hessian_call hernquist_hessianImpl r n =
        Except.error PotentialErr.notImplemented ∧
      hessian_call miyamoto_hessianImpl r n =
        Except.error PotentialErr.notImplemented ∧
      hessian_call leesuto_hessianImpl r n =
        Except.error PotentialErr.notImplemented) ∧
    (∀ (r : List (ℝ × ℝ × ℝ)) (n : ℕ) (out : List (Matrix (Fin 3) (Fin 3) ℝ)),
      hessian_call hernquist_hessianImpl r n ≠ Except.ok out ∧
      hessian_call miyamoto_hessianImpl r n ≠ Except.ok out ∧
      hessian_call leesuto_hessianImpl r n ≠ Except.ok out) :=
  ⟨fun _ _ => ⟨rfl, rfl, rfl⟩,
   fun _ _ _ => ⟨fun h => Except.noConfusion h, fun h => Except.noConfusion h,
     fun h => Except.noConfusion h⟩⟩

/-- C5: with the default angles `phi = theta = psi = 0` the Lee–Suto model
stores `R = Rinv = 1` exactly, coincides with the spec's variant that skips
the general matrix inversion for the identity, and its value and gradient
agree everywhere with a model constructed with `R` explicitly the identity. -/
theorem C5_zero_angles_identity :
    ∀ v_h r_h a b c : ℝ,
      (leesuto_init v_h r_h a b c 0 0 0).R = 1 ∧
      (leesuto_init v_h r_h a b c 0 0 0).Rinv = 1 ∧
      leesuto_init v_h r_h a b c 0 0 0 =
        mkLeeSuto_specSkip v_h r_h a b c (leesuto_euler_R 0 0 0) ∧
      ∀ p : ℝ × ℝ × ℝ,
        leesuto_value_at (leesuto_init v_h r_h a b c 0 0 0) p =
          leesuto_value_at (mkLeeSuto v_h r_h a b c 1) p ∧
        leesuto_grad_at (leesuto_init v_h r_h a b c 0 0 0) p =
          leesuto_grad_at (mkLeeSuto v_h r_h a b c 1) p := by
  intro v_h r_h a b c
  have hinit := leesuto_init_zero v_h r_h a b c
  refine ⟨by rw [hinit]; rfl, ?_, ?_, ?_⟩
  · rw [hinit]
    show (1 : Matrix (Fin 3) (Fin 3) ℝ)⁻¹ = 1
    exact inv_one
  · rw [hinit, leesuto_euler_R_zero]
    simp [mkLeeSuto, mkLeeSuto_specSkip]
  · intro p
    rw [hinit]
    exact ⟨rfl, rfl⟩

/-- C4 counterexample: for the spherical model `v_h = r_h = a = b = c = 1` with
Euler angles `(π/2, 0, 0)`, the gradient of the rotated model at the rotated
position `R⁻¹·(1,0,0)` is the rotated vector `(0, log 2 − 1/2, 0)`, while the
unrotated model's gradient at `(1,0,0)` is `(log 2 − 1/2, 0, 0)`: the results
are not the same. -/
theorem C4_counterexample :
    ¬ (leesuto_grad_at (leesuto_init 1 1 1 1 1 (Real.pi/2) 0 0)
        (applyMat (leesuto_euler_R (Real.pi/2) 0 0)⁻¹ ((1:ℝ), (0:ℝ), (0:ℝ))) =
      leesuto_grad_at (leesuto_init 1 1 1 1 1 0 0 0) ((1:ℝ), (0:ℝ), (0:ℝ))) := by
  have hpi2 : Real.pi/2 ≠ 0 := by
    have := Real.pi_pos
    intro h
    rw [div_eq_zero_iff] at h
    rcases h with h | h
    · linarith
    · norm_num at h
  have hR : leesuto_euler_R (Real.pi/2) 0 0 = !![0, 1, 0; -1, 0, 0; 0, 0, 1] := by
    rw [leesuto_euler_R, if_pos (Or.inr (Or.inl hpi2)), rotation_matrix_z,
      rotation_matrix_x, rotation_matrix_z]
    norm_num [Real.cos_pi_div_two, Real.sin_pi_div_two, Matrix.mul_fin_three]
  have hRinv : (leesuto_euler_R (Real.pi/2) 0 0)⁻¹ =
      !![0, -1, 0; 1, 0, 0; 0, 0, 1] := by
    apply Matrix.inv_eq_right_inv
    rw [hR, Matrix.mul_fin_three, Matrix.one_fin_three]
    norm_num
  have hgnat : leesuto_grad_nat 1 1 0 0 1 0 0 = (Real.log 2 - 1/2, 0, 0) := by
    simp only [leesuto_grad_nat]
    norm_num [Real.sqrt_one]
    ring
  intro heq
  rw [leesuto_grad_at_applyMat, leesuto_init_Rinv, leesuto_init_R,
    leesuto_init_v_h2, leesuto_init_r_h, leesuto_init_e_b2, leesuto_init_e_c2,
    hRinv, hR] at heq
  rw [leesuto_init_zero, leesuto_grad_at_applyMat,
    show (mkLeeSuto 1 1 1 1 1 (1 : Matrix (Fin 3) (Fin 3) ℝ)).Rinv = 1 from inv_one,
    show (mkLeeSuto 1 1 1 1 1 (1 : Matrix (Fin 3) (Fin 3) ℝ)).R = 1 from rfl] at heq
  norm_num +decide [applyMat, mkLeeSuto, Matrix.one_apply, Matrix.vecHead,
    Matrix.vecTail] at heq
  rw [hgnat] at heq
  norm_num at heq
  have hlog := Real.log_two_gt_d9
  rcases heq with ⟨h1, h2⟩
  linarith

/-- C4 (amended): constructing the Lee–Suto model with Euler angles
`(phi, theta, psi)` and evaluating at the rotated position `R⁻¹·p` gives the
same *value* as the zero-angle model at `p`, and gives the zero-angle model's
gradient at `p` transformed by `R⁻¹` (covariantly) — not the identical
gradient vector. -/
theorem C4_rotation_round_trip :
    ∀ (phi theta psi v_h r_h a b c : ℝ) (p : ℝ × ℝ × ℝ),
      leesuto_value_at (leesuto_init v_h r_h a b c phi theta psi)
        (applyMat (leesuto_euler_R phi theta psi)⁻¹ p) =
        leesuto_value_at (leesuto_init v_h r_h a b c 0 0 0) p ∧
      leesuto_grad_at (leesuto_init v_h r_h a b c phi theta psi)
        (applyMat (leesuto_euler_R phi theta psi)⁻¹ p) =
        applyMat (leesuto_euler_R phi theta psi)⁻¹
          (leesuto_grad_at (leesuto_init v_h r_h a b c 0 0 0) p) := by
  intro phi theta psi v_h r_h a b c p
  have hround : applyMat (leesuto_euler_R phi theta psi)
      (applyMat (leesuto_euler_R phi theta psi)⁻¹ p) = p := by
    rw [applyMat_applyMat, leesuto_euler_R_mul_inv, applyMat_one]
  constructor
  · rw [leesuto_init_zero]
    rw [leesuto_value_at_applyMat (leesuto_init v_h r_h a b c phi theta psi),
        leesuto_value_at_applyMat (mkLeeSuto v_h r_h a b c 1)]
    rw [leesuto_init_R, hround,
        show (mkLeeSuto v_h r_h a b c (1 : Matrix (Fin 3) (Fin 3) ℝ)).R = 1 from rfl,
        applyMat_one]
    rfl
  · rw [leesuto_init_zero]
    rw [leesuto_grad_at_applyMat (leesuto_init v_h r_h a b c phi theta psi),
        leesuto_grad_at_applyMat (mkLeeSuto v_h r_h a b c 1)]
    rw [leesuto_init_R, leesuto_init_Rinv, hround,
        show (mkLeeSuto v_h r_h a b c (1 : Matrix (Fin 3) (Fin 3) ℝ)).R = 1 from rfl,
        show (mkLeeSuto v_h r_h a b c (1 : Matrix (Fin 3) (Fin 3) ℝ)).Rinv = 1 from inv_one,
        applyMat_one, applyMat_one]
    rfl

/-- C1: for each kernel, at non-singular points, the analytic gradient is the
exact mathematical gradient (the partial derivatives in `x`, `y`, `z`) of the
analytic potential: Hernquist for `R > 0` and `c > 0`; Miyamoto–Nagai for
`b² > 0` and `a ≥ 0`; and for the Lee–Suto kernel with `r > 0` and `r_h > 0`
the long native-frame gradient closed form of `_gradient` is the exact
derivative of the closed form of `_value`. -/
theorem C1_gradient_consistency :
    (∀ GM c x y z : ℝ, 0 < x*x + y*y + z*z → 0 < c →
      HasDerivAt (fun t => hernquist_pot GM c t y z) (hernquist_grad GM c x y z).1 x ∧
      HasDerivAt (fun t => hernquist_pot GM c x t z) (hernquist_grad GM c x y z).2.1 y ∧
      HasDerivAt (fun t => hernquist_pot GM c x y t) (hernquist_grad GM c x y z).2.2 z) ∧
    (∀ GM a b2 x y z : ℝ, 0 < b2 → 0 ≤ a →
      HasDerivAt (fun t => miyamoto_pot GM a b2 t y z) (miyamoto_grad GM a b2 x y z).1 x ∧
      HasDerivAt (fun t => miyamoto_pot GM a b2 x t z) (miyamoto_grad GM a b2 x y z).2.1 y ∧
      HasDerivAt (fun t => miyamoto_pot GM a b2 x y t) (miyamoto_grad GM a b2 x y z).2.2 z) ∧
    (∀ v_h2 r_h e_b2 e_c2 x y z : ℝ, 0 < x*x + y*y + z*z → 0 < r_h →
      HasDerivAt (fun t => leesuto_pot_nat v_h2 r_h e_b2 e_c2 t y z)
        (leesuto_grad_nat v_h2 r_h e_b2 e_c2 x y z).1 x ∧
      HasDerivAt (fun t => leesuto_pot_nat v_h2 r_h e_b2 e_c2 x t z)
        (leesuto_grad_nat v_h2 r_h e_b2 e_c2 x y z).2.1 y ∧
      HasDerivAt (fun t => leesuto_pot_nat v_h2 r_h e_b2 e_c2 x y t)
        (leesuto_grad_nat v_h2 r_h e_b2 e_c2 x y z).2.2 z) :=
  ⟨fun GM c x y z hs hc => hernquist_hasDerivAt GM c x y z hs hc,
   fun GM a b2 x y z hb2 ha => miyamoto_hasDerivAt GM a b2 x y z hb2 ha,
   fun v r eb ec x y z hs hr =>
     ⟨leesuto_hasDerivAt_x v r eb ec x y z hs hr,
      leesuto_hasDerivAt_y v r eb ec x y z hs hr,
      leesuto_hasDerivAt_z v r eb ec x y z hs hr⟩⟩

/-- C1 witness: the derivative identities applied at the concrete non-singular
points `(1,0,0)` (Hernquist, `GM = c = 1`), `(0,0,0)` (Miyamoto–Nagai,
`GM = a = b2 = 1`), and `(1,0,0)` (Lee–Suto, `v_h2 = r_h = 1`,
`e_b2 = e_c2 = 0`). -/
theorem C1_gradient_consistency_witness :
    HasDerivAt (fun t => hernquist_pot 1 1 t 0 0) (hernquist_grad 1 1 1 0 0).1 1 ∧
    HasDerivAt (fun t => miyamoto_pot 1 1 1 t 0 0) (miyamoto_grad 1 1 1 0 0 0).1 0 ∧
    HasDerivAt (fun t => leesuto_pot_nat 1 1 0 0 t 0 0)
      (leesuto_grad_nat 1 1 0 0 1 0 0).1 1 :=
  ⟨(C1_gradient_consistency.1 1 1 1 0 0 (by norm_num) (by norm_num)).1,
   (C1_gradient_consistency.2.1 1 1 1 0 0 0 (by norm_num) (by norm_num)).1,
   (C1_gradient_consistency.2.2 1 1 0 0 1 0 0 (by norm_num) (by norm_num)).1⟩

end
